import Mathlib

/-!
Verification development for the tr4ck incremental marker-tracking tool.

The Go sources are shallowly embedded here.  Go strings are modelled as
`List Char` (the sources only manipulate them as character/byte sequences).
File-system and git side effects are modelled by passing the backend's
results (head revision, raw per-file patches, per-file scan outcomes) as
explicit parameters; `Except Unit` models a Go `error` return and `Option`
(with `none`) models a runtime panic where one can occur.

The repository contains several variants of the same functions
(`src/unnamed/part_000`, `part_001`, `part_003`, `src/cli/registry.go`);
where variants differ the suffixes `_v0`, `_v1`, `_v3` refer to
`part_000`, `part_001` and `part_003` respectively.
-/

/-- Go strings are modelled as lists of characters. -/
abbrev Str := List Char

/-- Characters recognised by Go's `unicode.IsSpace` (the split set of
`strings.Fields`). -/
def goIsSpace (c : Char) : Bool :=
  c = ' ' || c = '\t' || c = '\n' || c = '\x0b' || c = '\x0c' || c = '\r' ||
  c = '\u0085' || c = '\u00a0' || c = '\u1680' ||
  ('\u2000' ≤ c && c ≤ '\u200a') ||
  c = '\u2028' || c = '\u2029' || c = '\u202f' || c = '\u205f' || c = '\u3000'

/-- Worker for `goFields`: splits on whitespace runs, dropping empty words,
accumulating the current word reversed in `acc`. -/
def goFieldsAux : List Char → List Char → List (List Char)
  | [], acc => if acc = [] then [] else [acc.reverse]
  | c :: rest, acc =>
    if goIsSpace c then
      if acc = [] then goFieldsAux rest []
      else acc.reverse :: goFieldsAux rest []
    else goFieldsAux rest (c :: acc)

/-- Embedding of Go's `strings.Fields`. -/
def goFields (s : List Char) : List (List Char) := goFieldsAux s []

/-- Worker for `splitLines`: splits on `'\n'`, keeping interior empty lines
and dropping a trailing empty segment, exactly as `bufio.Scanner` with
`ScanLines` tokenises a stream (carriage returns are not modelled; the
inputs of interest contain none). -/
def splitLinesAux : List Char → List Char → List (List Char)
  | [], acc => if acc = [] then [] else [acc.reverse]
  | c :: rest, acc =>
    if c = '\n' then acc.reverse :: splitLinesAux rest []
    else splitLinesAux rest (c :: acc)

/-- The sequence of lines a `bufio.Scanner` yields on the given content. -/
def splitLines (s : List Char) : List (List Char) := splitLinesAux s []

/-- Embedding of Go's `strings.Trim(line, " ")`: strips leading and trailing
space characters only. -/
def trimSpaces (s : List Char) : List Char :=
  ((s.dropWhile fun c => c == ' ').reverse.dropWhile fun c => c == ' ').reverse

/-- Embedding of `strings.Join(parts, " ")`. -/
def joinSpace (parts : List (List Char)) : List Char :=
  List.intercalate [' '] parts

/-- `RegistryRecord` from `src/cli/registry.go`: root hash, last processed
hash and repository URI. -/
structure RegistryRecord where
  RootHash : Str
  LastestHash : Str
  URI : Str
deriving DecidableEq, Repr

/-- The four-space separator used by the `fmt.Sprintf("%s    %s    %s\n", ...)`
rewrite format in `appendToRegistry` and `updateRegistry`. -/
def registrySep : List Char := [' ', ' ', ' ', ' ']

/-- One line of the registry file as written on rewrite: root hash, four
spaces, last processed hash, four spaces, URI. -/
def serializeLine (r : RegistryRecord) : List Char :=
  r.RootHash ++ registrySep ++ r.LastestHash ++ registrySep ++ r.URI

/-- The whole registry file content produced by the truncate-and-rewrite in
`updateRegistry` (each line followed by a newline). -/
def saveContent : List RegistryRecord → List Char
  | [] => []
  | r :: rs => serializeLine r ++ '\n' :: saveContent rs

/-- Parsing of one registry line, following `loadRegistry` in
`src/cli/registry.go`: more than three fields is a parse error; one field is
a URI-only record (the raw line trimmed of spaces); two fields are root hash
plus URI; three fields are the full record.  `none` covers both the
`invalid registry entry` error and the index-out-of-range panic a
zero-field (blank) line would cause in the Go source. -/
def parseLine (line : List Char) : Option RegistryRecord :=
  let parts := goFields line
  if parts.length > 3 then none
  else if parts.length = 1 then
    some { RootHash := [], LastestHash := [], URI := trimSpaces line }
  else if parts.length = 2 then
    match parts with
    | a :: rest => some { RootHash := a, LastestHash := [], URI := joinSpace rest }
    | [] => none
  else
    match parts with
    | a :: b :: rest => some { RootHash := a, LastestHash := b, URI := joinSpace rest }
    | _ => none

/-- The scanner loop of `loadRegistry`: parse each line, aborting on the
first failure. -/
def loadRecords : List (List Char) → Option (List RegistryRecord)
  | [] => some []
  | l :: ls =>
    match parseLine l with
    | none => none
    | some r =>
      match loadRecords ls with
      | none => none
      | some rs => some (r :: rs)

/-- `loadRegistry` from `src/cli/registry.go`, as a function of the registry
file's content. -/
def loadRegistry (content : List Char) : Option (List RegistryRecord) :=
  loadRecords (splitLines content)

/-- The in-memory replacement loop of `updateRegistry`: replace the first
record whose URI equals `rec.URI` with `rec`; `none` is the
`URI not found in the registry` error. -/
def replaceFirstByURI : List RegistryRecord → RegistryRecord → Option (List RegistryRecord)
  | [], _ => none
  | r :: rs, rec =>
    if r.URI = rec.URI then
      some ({ RootHash := rec.RootHash, LastestHash := rec.LastestHash, URI := rec.URI } :: rs)
    else
      match replaceFirstByURI rs rec with
      | none => none
      | some rs' => some (r :: rs')

/-- `updateRegistry` from `src/cli/registry.go` at the file level: load all
records, replace the matching one, truncate and rewrite the whole file.
`none` surfaces a load or not-found error, in which case the file is not
touched (the error returns happen before the truncating open). -/
def updateRegistry (content : List Char) (rec : RegistryRecord) : Option (List Char) :=
  match loadRegistry content with
  | none => none
  | some recs =>
    match replaceFirstByURI recs rec with
    | none => none
    | some recs' => some (saveContent recs')

/-- First record with the given URI, used to state what "the record stored
for a URI" means. -/
def findByURI : List RegistryRecord → Str → Option RegistryRecord
  | [], _ => none
  | r :: rs, u => if r.URI = u then some r else findByURI rs u

/-- Embedding of Go's `filepath.Ext` worker: scan the reversed path for the
first `'.'` occurring before any `'/'`; `acc` holds the characters already
passed over, in forward order. -/
def extFromRev (acc : List Char) : List Char → List Char
  | [] => []
  | c :: rest =>
    if c = '/' then []
    else if c = '.' then '.' :: acc
    else extFromRev (c :: acc) rest

/-- Go's `filepath.Ext`: the suffix beginning at the final dot in the final
path element, or empty if there is none. -/
def pathExt (p : List Char) : List Char := extFromRev [] p.reverse

/-- The default `ignoredExtensions` set initialised in `part_000`. -/
def ignoredExtensionsV0 : List Str :=
  [".json".data, ".yaml".data, ".yml".data, ".sum".data, ".mod".data, ".html".data]

/-- Membership test `ignoredExtensions[ext]` in `part_000`. -/
def isIgnoredExtV0 (e : Str) : Bool := ignoredExtensionsV0.contains e

/-- The extension test hard-coded in `filterFiles` (`part_001`/`part_003`):
`.json`, `.yaml`, `.yml`, `.sum`, `.mod`. -/
def isIgnoredExtV1 (e : Str) : Bool :=
  e = ".json".data || e = ".yaml".data || e = ".yml".data ||
  e = ".sum".data || e = ".mod".data

/-- `filterFiles` from `part_001`/`part_003`: drop every path whose
extension is one of the disabled types. -/
def filterFiles : List Str → List Str
  | [] => []
  | f :: fs =>
    if isIgnoredExtV1 (pathExt f) then filterFiles fs
    else f :: filterFiles fs

/-- One entry of the backend's per-file diff (`filePatch.Files()`): `src` is
the from-file, `dst` the to-file; `none` means the side is absent (addition
has no `src`, deletion has no `dst`). -/
structure FilePatch where
  src : Option Str
  dst : Option Str
deriving DecidableEq, Repr

/-- Set-insert into the insertion-ordered list modelling a Go
`map[string]struct{}`. -/
def insertSet (l : List Str) (x : Str) : List Str :=
  if x ∈ l then l else l ++ [x]

/-- Set-delete, modelling Go's `delete(m, x)`. -/
def eraseSet : List Str → Str → List Str
  | [], _ => []
  | y :: ys, x => if y = x then eraseSet ys x else y :: eraseSet ys x

/-- One iteration of the classification loop in `part_000`'s
`listChangedFilesSinceCommit` (state: changed set, removed set).  Every
branch keys the extension filter on `from.Path()`; in the add branch `from`
is `nil` for a pure addition, so the Go code dereferences a nil interface —
modelled as `none` (panic). -/
def classifyStepV0 (st : List Str × List Str) (p : FilePatch) :
    Option (List Str × List Str) :=
  match p.src, p.dst with
  | some f, some t =>
    if f = t then
      -- addition-or-modification branch (paths equal): filter on from's ext
      some (if isIgnoredExtV0 (pathExt f) then st else (insertSet st.1 t, st.2))
    else
      -- rename branch: from is deleted from changed before the filter check
      let st1 : List Str × List Str := (eraseSet st.1 f, st.2)
      some (if isIgnoredExtV0 (pathExt f) then st1 else (insertSet st1.1 t, st1.2))
  | none, some _ => none
  | some f, none =>
    some (if isIgnoredExtV0 (pathExt f) then st else (st.1, insertSet st.2 f))
  | none, none => some st

/-- The classification loop of `part_000`'s `listChangedFilesSinceCommit`
over the backend's patch list; `none` is the nil-dereference panic. -/
def classifyPatchesV0 (ps : List FilePatch) : Option (List Str × List Str) :=
  ps.foldlM classifyStepV0 ([], [])

/-- One iteration of the classification loop shared by `part_001` and
`part_002`: rename deletes the source from the changed set and adds the
destination; a present destination is added to changed; a lone source is
added to removed.  No extension filtering happens here. -/
def classifyStepV1 (st : List Str × List Str) (p : FilePatch) :
    List Str × List Str :=
  match p.src, p.dst with
  | some f, some t =>
    if f = t then (insertSet st.1 t, st.2)
    else (insertSet (eraseSet st.1 f) t, st.2)
  | none, some t => (insertSet st.1 t, st.2)
  | some f, none => (st.1, insertSet st.2 f)
  | none, none => st

/-- `listChangedFilesSinceCommit` from `part_001` as a function of the
backend's patch list: classify every entry, then filter both outputs with
`filterFiles`. -/
def listChangedFilesSinceCommitV1 (ps : List FilePatch) : List Str × List Str :=
  let st := ps.foldl classifyStepV1 ([], [])
  (filterFiles st.1, filterFiles st.2)

/-- Go's `strings.Contains(s, sub)`. -/
def strContains : List Char → List Char → Bool
  | [], sub => sub.isEmpty
  | c :: rest, sub => sub.isPrefixOf (c :: rest) || strContains rest sub

/-- The per-line marker loop shared by both `containsMarker` variants:
return the first configured marker that is a substring of the line. -/
def firstMarker (markers : List Str) (line : Str) : Option Str :=
  markers.find? fun m => strContains line m

/-- The outer loop of `containsMarker`: scan the lines in order and stop at
the first line containing any marker. -/
def containsMarkerLines (markers : List Str) : List Str → Bool × Option Str
  | [] => (false, none)
  | l :: ls =>
    match firstMarker markers l with
    | some m => (true, some m)
    | none => containsMarkerLines markers ls

/-- The chunks `part_000`'s `containsMarker` actually examines: every
`reader.ReadString('\n')` result that ends with the delimiter (the
delimiter is included in the chunk).  When `ReadString` hits `io.EOF` the
Go code `break`s without looking at the data returned alongside the error,
so a final chunk not terminated by a newline is dropped. -/
def linesV0Aux (acc : List Char) : List Char → List (List Char)
  | [] => []
  | c :: rest =>
    if c = '\n' then (c :: acc).reverse :: linesV0Aux [] rest
    else linesV0Aux (c :: acc) rest

/-- Newline-terminated chunks of the content (see `linesV0Aux`). -/
def linesV0 (content : List Char) : List (List Char) := linesV0Aux [] content

/-- `containsMarker` from `part_000` (`bufio.Reader.ReadString` variant) as
a function of the file content. -/
def containsMarkerV0 (content : List Char) (markers : List Str) : Bool × Option Str :=
  containsMarkerLines markers (linesV0 content)

/-- `containsMarker` from `part_001`/`part_002` (`bufio.Scanner` variant):
the scanner yields every line, including a final line without a trailing
newline, with the terminator stripped. -/
def containsMarkerV1 (content : List Char) (markers : List Str) : Bool × Option Str :=
  containsMarkerLines markers (splitLines content)

/-- The files-with-hits loop of `listFilesWithMarkersSinceCommit`: run the
scanner over each changed file in order, collecting those with a hit; a
scanner error aborts the whole call.  `scan` gives each file's scan outcome
(`Except.error` models an `IOError` from `containsMarker`). -/
def scanHits (scan : Str → Except Unit Bool) : List Str → Except Unit (List Str)
  | [] => .ok []
  | f :: fs =>
    match scan f with
    | .error e => .error e
    | .ok hit =>
      match scanHits scan fs with
      | .error e => .error e
      | .ok hs => .ok (if hit then f :: hs else hs)

/-- Number of files handed to `containsMarker` before the loop stops (all of
them on success, up to and including the failing one on error). -/
def scanCount (scan : Str → Except Unit Bool) : List Str → Nat
  | [] => 0
  | f :: fs =>
    match scan f with
    | .error _ => 1
    | .ok _ => 1 + scanCount scan fs

/-- The diff boundary chosen by the sync loop: `LastestHash`, falling back
to `RootHash` when it is empty. -/
def firstHash (rec : RegistryRecord) : Str :=
  if rec.LastestHash = [] then rec.RootHash else rec.LastestHash

/-- Outcome of one per-record sync cycle: the resulting registry records and
how many files were scanned for markers. -/
structure CycleResult where
  regs : List RegistryRecord
  scanned : Nat
deriving DecidableEq, Repr

/-- The orchestrator's reaction to `updateRegistry`'s result: on error the
registry is left as it was (the error is only logged). -/
def applyUpdate (regs : List RegistryRecord) (rec : RegistryRecord) :
    List RegistryRecord :=
  match replaceFirstByURI regs rec with
  | none => regs
  | some rs => rs

/-- One record's sync cycle from `part_000`'s root command (lines 473-524),
for a run in which the working copy materialised and the head revision
resolved to `head`.  `patches` is the backend diff (by from/to revision);
`scan` the per-file scanner outcome.  The registry is represented by its
parsed records.  `none` models the nil-dereference panic inside the diff
classification.  Both success branches (no hits and no removals, or
anything found) write the record back with `LastestHash := head`. -/
def syncCycleV0 (regs : List RegistryRecord) (record : RegistryRecord)
    (head : Str) (patches : Str → Str → Except Unit (List FilePatch))
    (scan : Str → Except Unit Bool) : Option CycleResult :=
  if record.LastestHash = head then some ⟨regs, 0⟩
  else
    match patches (firstHash record) head with
    | .error _ => some ⟨regs, 0⟩
    | .ok ps =>
      match classifyPatchesV0 ps with
      | none => none
      | some (changed, removed) =>
        match scanHits scan changed with
        | .error _ => some ⟨regs, scanCount scan changed⟩
        | .ok hits =>
          let newRec : RegistryRecord :=
            { RootHash := record.RootHash, LastestHash := head, URI := record.URI }
          if hits = [] ∧ removed = [] then
            some ⟨applyUpdate regs newRec, scanCount scan changed⟩
          else
            some ⟨applyUpdate regs newRec, scanCount scan changed⟩

/-- One record's sync cycle from `part_001`'s root command (lines 302-353):
same structure as `part_000`'s, but classification never panics (no inline
filter), `filterFiles` is applied to both diff outputs, and the registry
write-back in the changes-found branch is commented out in the source — only
the empty-result branch commits. -/
def syncCycleV1 (regs : List RegistryRecord) (record : RegistryRecord)
    (head : Str) (patches : Str → Str → Except Unit (List FilePatch))
    (scan : Str → Except Unit Bool) : CycleResult :=
  if record.LastestHash = head then ⟨regs, 0⟩
  else
    match patches (firstHash record) head with
    | .error _ => ⟨regs, 0⟩
    | .ok ps =>
      let st := listChangedFilesSinceCommitV1 ps
      match scanHits scan st.1 with
      | .error _ => ⟨regs, scanCount scan st.1⟩
      | .ok hits =>
        let newRec : RegistryRecord :=
          { RootHash := record.RootHash, LastestHash := head, URI := record.URI }
        if hits = [] ∧ st.2 = [] then
          ⟨applyUpdate regs newRec, scanCount scan st.1⟩
        else
          ⟨regs, scanCount scan st.1⟩

/-- One commit visited by `part_003`'s history walk: its hash, its parent's
hash if `commit.Parents().Next()` resolves one, and the patch list of
`parentCommit.Patch(commit)`. -/
structure WalkCommit where
  hash : Str
  parent : Option Str
  patches : List FilePatch
deriving DecidableEq, Repr

/-- One iteration of the patch-collection loop in `part_003`'s
`listChangedFilesSinceCommit`: renames replace the source by the
destination in the changed set, a present destination is added; there is no
delete branch in this variant. -/
def classifyStepV3 (st : List Str) (p : FilePatch) : List Str :=
  match p.src, p.dst with
  | some f, some t => if f = t then insertSet st t else insertSet (eraseSet st f) t
  | none, some t => insertSet st t
  | some _, none => st
  | none, none => st

/-- The `commitIter.ForEach` walk of `part_003`'s
`listChangedFilesSinceCommit`: starting from head, stop (without diffing)
when the boundary revision is reached; fail when a commit before the
boundary has no parent; otherwise accumulate the commit's diff against its
parent and continue.  An exhausted iterator returns the accumulated set. -/
def walkSince (boundary : Str) : List WalkCommit → List Str → Except Unit (List Str)
  | [], acc => .ok acc
  | c :: rest, acc =>
    if c.hash = boundary then .ok acc
    else
      match c.parent with
      | none => .error ()
      | some _ => walkSince boundary rest (c.patches.foldl classifyStepV3 acc)

/-- `listChangedFilesSinceCommit` from `part_003` as a function of the
commit sequence the backend's log yields from head. -/
def listChangedFilesSinceCommitV3 (sinceCommitHash : Str)
    (commits : List WalkCommit) : Except Unit (List Str) :=
  walkSince sinceCommitHash commits []

/-- A well-formed registry field: non-empty and free of characters that
`strings.Fields` would split on (which includes `'\n'`). -/
def wfField (w : Str) : Bool := !w.isEmpty && w.all fun c => !goIsSpace c

/-- A well-formed (full-triple) registry record: all three fields are
well-formed fields. -/
def wfRecord (r : RegistryRecord) : Bool :=
  wfField r.RootHash && wfField r.LastestHash && wfField r.URI

/-- A well-formed record sequence. -/
def wellFormedRecords (rs : List RegistryRecord) : Bool := rs.all wfRecord

theorem wfField_iff {w : Str} :
    wfField w = true ↔ w ≠ [] ∧ ∀ c ∈ w, goIsSpace c = false := by
  cases w <;> simp [wfField, List.all_eq_true]

theorem goFieldsAux_word (w s acc : List Char)
    (hw : ∀ c ∈ w, goIsSpace c = false) :
    goFieldsAux (w ++ s) acc = goFieldsAux s (w.reverse ++ acc) := by
  induction w generalizing acc with
  | nil => simp
  | cons c w ih =>
    have hc : goIsSpace c = false := hw c (by simp)
    have hw' : ∀ d ∈ w, goIsSpace d = false := fun d hd => hw d (by simp [hd])
    simp only [List.cons_append, goFieldsAux, hc, Bool.false_eq_true, if_false,
      List.append_eq]
    rw [ih _ hw']
    simp

theorem goFieldsAux_flush (c : Char) (s acc : List Char)
    (hc : goIsSpace c = true) (ha : acc ≠ []) :
    goFieldsAux (c :: s) acc = acc.reverse :: goFieldsAux s [] := by
  simp [goFieldsAux, hc, ha]

theorem goFieldsAux_skip (c : Char) (s : List Char) (hc : goIsSpace c = true) :
    goFieldsAux (c :: s) [] = goFieldsAux s [] := by
  simp [goFieldsAux, hc]

theorem goFieldsAux_nil (acc : List Char) (ha : acc ≠ []) :
    goFieldsAux [] acc = [acc.reverse] := by
  simp [goFieldsAux, ha]

theorem goFields_serializeLine (r : RegistryRecord)
    (hr : wfField r.RootHash = true) (hl : wfField r.LastestHash = true)
    (hu : wfField r.URI = true) :
    goFields (serializeLine r) = [r.RootHash, r.LastestHash, r.URI] := by
  obtain ⟨hr0, hrc⟩ := wfField_iff.mp hr
  obtain ⟨hl0, hlc⟩ := wfField_iff.mp hl
  obtain ⟨hu0, huc⟩ := wfField_iff.mp hu
  have hsp : goIsSpace ' ' = true := by decide
  have hrrev : r.RootHash.reverse ≠ [] := by simpa using hr0
  have hlrev : r.LastestHash.reverse ≠ [] := by simpa using hl0
  have hurev : r.URI.reverse ≠ [] := by simpa using hu0
  unfold goFields serializeLine registrySep
  rw [show r.RootHash ++ [' ', ' ', ' ', ' '] ++ r.LastestHash ++ [' ', ' ', ' ', ' '] ++ r.URI
        = r.RootHash ++ (' ' :: ' ' :: ' ' :: ' ' ::
            (r.LastestHash ++ (' ' :: ' ' :: ' ' :: ' ' :: r.URI))) by simp]
  rw [goFieldsAux_word _ _ _ hrc]
  rw [List.append_nil]
  rw [goFieldsAux_flush _ _ _ hsp hrrev, List.reverse_reverse]
  rw [goFieldsAux_skip _ _ hsp, goFieldsAux_skip _ _ hsp, goFieldsAux_skip _ _ hsp]
  rw [goFieldsAux_word _ _ _ hlc]
  rw [List.append_nil]
  rw [goFieldsAux_flush _ _ _ hsp hlrev, List.reverse_reverse]
  rw [goFieldsAux_skip _ _ hsp, goFieldsAux_skip _ _ hsp, goFieldsAux_skip _ _ hsp]
  rw [show r.URI = r.URI ++ [] by simp]
  rw [goFieldsAux_word _ _ _ (by simpa using huc)]
  simp [goFieldsAux_nil _ hurev]

theorem parseLine_serializeLine (r : RegistryRecord) (h : wfRecord r = true) :
    parseLine (serializeLine r) = some r := by
  have h3 : (wfField r.RootHash = true ∧ wfField r.LastestHash = true) ∧
      wfField r.URI = true := by simpa [wfRecord, Bool.and_eq_true] using h
  obtain ⟨⟨hr, hl⟩, hu⟩ := h3
  simp [parseLine, goFields_serializeLine r hr hl hu, joinSpace, List.intercalate]

theorem serializeLine_no_newline (r : RegistryRecord) (h : wfRecord r = true) :
    ∀ c ∈ serializeLine r, c ≠ '\n' := by
  have h3 : (wfField r.RootHash = true ∧ wfField r.LastestHash = true) ∧
      wfField r.URI = true := by simpa [wfRecord, Bool.and_eq_true] using h
  obtain ⟨⟨hr, hl⟩, hu⟩ := h3
  have field_nl : ∀ {w : Str}, wfField w = true → ∀ c ∈ w, c ≠ '\n' := by
    intro w hw c hc hne
    have := (wfField_iff.mp hw).2 c hc
    subst hne
    simp [goIsSpace] at this
  intro c hc
  simp only [serializeLine, registrySep, List.mem_append] at hc
  rcases hc with ((((hc | hc) | hc) | hc) | hc)
  · exact field_nl hr c hc
  · have : c = ' ' := by simpa using hc
    subst this; decide
  · exact field_nl hl c hc
  · have : c = ' ' := by simpa using hc
    subst this; decide
  · exact field_nl hu c hc

theorem splitLinesAux_word (w s acc : List Char) (hw : ∀ c ∈ w, c ≠ '\n') :
    splitLinesAux (w ++ s) acc = splitLinesAux s (w.reverse ++ acc) := by
  induction w generalizing acc with
  | nil => simp
  | cons c w ih =>
    have hc : c ≠ '\n' := hw c (by simp)
    have hw' : ∀ d ∈ w, d ≠ '\n' := fun d hd => hw d (by simp [hd])
    simp only [List.cons_append, splitLinesAux, hc, if_false, List.append_eq]
    rw [ih _ hw']
    simp

theorem splitLinesAux_nl (s acc : List Char) :
    splitLinesAux ('\n' :: s) acc = acc.reverse :: splitLinesAux s [] := by
  simp [splitLinesAux]

theorem splitLines_saveContent (R : List RegistryRecord)
    (h : wellFormedRecords R = true) :
    splitLines (saveContent R) = R.map serializeLine := by
  induction R with
  | nil => simp [splitLines, saveContent, splitLinesAux]
  | cons r rs ih =>
    have hrec : wfRecord r = true ∧ wellFormedRecords rs = true := by
      simpa [wellFormedRecords, List.all_eq_true] using
        (by simpa [wellFormedRecords] using h : wfRecord r = true ∧
          ∀ x ∈ rs, wfRecord x = true)
    obtain ⟨hr, hrs⟩ := hrec
    unfold splitLines saveContent
    rw [splitLinesAux_word _ _ _ (serializeLine_no_newline r hr)]
    rw [List.append_nil, splitLinesAux_nl, List.reverse_reverse]
    rw [show splitLinesAux (saveContent rs) [] = splitLines (saveContent rs) from rfl]
    rw [ih hrs]
    simp

theorem loadRecords_map_serialize (R : List RegistryRecord)
    (h : wellFormedRecords R = true) :
    loadRecords (R.map serializeLine) = some R := by
  induction R with
  | nil => simp [loadRecords]
  | cons r rs ih =>
    have hr : wfRecord r = true := by
      have := (by simpa [wellFormedRecords, List.all_eq_true] using h :
        wfRecord r = true ∧ ∀ x ∈ rs, wfRecord x = true)
      exact this.1
    have hrs : wellFormedRecords rs = true := by
      have := (by simpa [wellFormedRecords, List.all_eq_true] using h :
        wfRecord r = true ∧ ∀ x ∈ rs, wfRecord x = true)
      simpa [wellFormedRecords, List.all_eq_true] using this.2
    simp only [List.map_cons, loadRecords, parseLine_serializeLine r hr, ih hrs]

/-- The load-save round trip at the heart of the registry store: rewriting a
well-formed record sequence and loading it back yields the same sequence. -/
theorem loadRegistry_saveContent (R : List RegistryRecord)
    (h : wellFormedRecords R = true) :
    loadRegistry (saveContent R) = some R := by
  unfold loadRegistry
  rw [splitLines_saveContent R h, loadRecords_map_serialize R h]

theorem replaceFirstByURI_spec :
    ∀ (regs : List RegistryRecord) (rec : RegistryRecord)
      (regs' : List RegistryRecord),
    replaceFirstByURI regs rec = some regs' →
    regs'.length = regs.length ∧
    findByURI regs' rec.URI = some rec ∧
    ∀ i, (∀ r, regs.get? i = some r → r.URI ≠ rec.URI) →
      regs'.get? i = regs.get? i
  | [], rec, regs', h => by simp [replaceFirstByURI] at h
  | r :: rs, rec, regs', h => by
    by_cases hu : r.URI = rec.URI
    · simp only [replaceFirstByURI, hu, if_true] at h
      have heta : rec :: rs = regs' := by simpa using h
      subst heta
      refine ⟨by simp, by simp [findByURI], ?_⟩
      intro i hi
      match i with
      | 0 =>
        exact absurd hu (hi r (by simp))
      | i + 1 => simp
    · simp only [replaceFirstByURI, hu, if_false] at h
      cases hrs : replaceFirstByURI rs rec with
      | none => rw [hrs] at h; exact absurd h (by simp)
      | some rs' =>
        rw [hrs] at h
        have heta : r :: rs' = regs' := by simpa using h
        subst heta
        obtain ⟨hlen, hfind, hframe⟩ := replaceFirstByURI_spec rs rec rs' hrs
        refine ⟨by simp [hlen], by simp [findByURI, hu, hfind], ?_⟩
        intro i hi
        match i with
        | 0 => simp
        | i + 1 =>
          simpa using hframe i (fun x hx => hi x (by simpa using hx))

theorem replaceFirstByURI_isSome {regs : List RegistryRecord}
    {rec : RegistryRecord} (h : ∃ r ∈ regs, r.URI = rec.URI) :
    ∃ regs', replaceFirstByURI regs rec = some regs' := by
  induction regs with
  | nil => simp at h
  | cons r rs ih =>
    by_cases hu : r.URI = rec.URI
    · refine ⟨rec :: rs, ?_⟩
      simp only [replaceFirstByURI, hu, if_true]
    · obtain ⟨x, hx, hxu⟩ := h
      rcases List.mem_cons.mp hx with rfl | hx'
      · exact absurd hxu hu
      · obtain ⟨rs', hrs'⟩ := ih ⟨x, hx', hxu⟩
        exact ⟨r :: rs', by simp [replaceFirstByURI, hu, hrs']⟩

/-- C3: serializing a well-formed record sequence in the registry's
three-field whitespace-separated line format and loading it back yields
exactly the same records, with the same field values, in the same order. -/
theorem registry_load_save_roundtrip (R : List RegistryRecord)
    (h : wellFormedRecords R = true) :
    loadRegistry (saveContent R) = some R :=
  loadRegistry_saveContent R h

theorem registry_load_save_roundtrip_witness :
    wellFormedRecords
      [⟨"abc123".data, "def456".data, "u1".data⟩,
       ⟨"r2".data, "l2".data, "https://example.com/x.git".data⟩] = true ∧
    loadRegistry (saveContent
      [⟨"abc123".data, "def456".data, "u1".data⟩,
       ⟨"r2".data, "l2".data, "https://example.com/x.git".data⟩]) =
      some [⟨"abc123".data, "def456".data, "u1".data⟩,
            ⟨"r2".data, "l2".data, "https://example.com/x.git".data⟩] :=
  ⟨by decide, registry_load_save_roundtrip _ (by decide)⟩

/-- C2 counterexample: `updateRegistry` overwrites the stored record with
the caller's record wholesale, so passing a record with a different
RootHash changes the persisted RootRevision for that URI. -/
theorem updateRegistry_changes_roothash_cex :
    ((loadRegistry (saveContent [⟨"a".data, "x".data, "u".data⟩])).bind
        fun rs => (findByURI rs "u".data).map RegistryRecord.RootHash)
      = some "a".data ∧
    updateRegistry (saveContent [⟨"a".data, "x".data, "u".data⟩])
        ⟨"b".data, "y".data, "u".data⟩
      = some (saveContent [⟨"b".data, "y".data, "u".data⟩]) ∧
    ((loadRegistry (saveContent [⟨"b".data, "y".data, "u".data⟩])).bind
        fun rs => (findByURI rs "u".data).map RegistryRecord.RootHash)
      = some "b".data ∧
    ("a".data : Str) ≠ "b".data :=
  ⟨by decide, by decide, by decide, by decide⟩

/-- C2 (amended): `update` replaces the stored record's fields with the
caller's record, so the RootRevision stored for a URI is preserved by
`update(rec)` exactly when `rec` carries the currently stored RootRevision —
which is the case at every call site, since the sync cycle passes back the
loaded record with only LastProcessedRevision changed. -/
theorem update_preserves_roothash_of_matching (regs : List RegistryRecord)
    (rec : RegistryRecord) (regs' : List RegistryRecord)
    (hroot : (findByURI regs rec.URI).map RegistryRecord.RootHash =
      some rec.RootHash)
    (h : replaceFirstByURI regs rec = some regs') :
    (findByURI regs' rec.URI).map RegistryRecord.RootHash =
      (findByURI regs rec.URI).map RegistryRecord.RootHash := by
  rw [(replaceFirstByURI_spec regs rec regs' h).2.1, hroot]
  rfl

theorem update_preserves_roothash_of_matching_witness :
    (findByURI [(⟨"a".data, "x".data, "u".data⟩ : RegistryRecord)]
        "u".data).map RegistryRecord.RootHash = some "a".data ∧
    (findByURI [(⟨"a".data, "z".data, "u".data⟩ : RegistryRecord)]
        "u".data).map RegistryRecord.RootHash =
      (findByURI [(⟨"a".data, "x".data, "u".data⟩ : RegistryRecord)]
        "u".data).map RegistryRecord.RootHash :=
  ⟨by decide,
    update_preserves_roothash_of_matching
      [⟨"a".data, "x".data, "u".data⟩] ⟨"a".data, "z".data, "u".data⟩
      [⟨"a".data, "z".data, "u".data⟩] (by decide) (by decide)⟩

/-- C10: a successful update leaves every record with a different URI
unchanged in all fields and preserves the record count and relative order of
the rewritten registry file. -/
theorem update_frames_other_records (R : List RegistryRecord)
    (rec : RegistryRecord) (hwf : wellFormedRecords R = true)
    (hmem : ∃ r ∈ R, r.URI = rec.URI) :
    ∃ R', replaceFirstByURI R rec = some R' ∧
      updateRegistry (saveContent R) rec = some (saveContent R') ∧
      R'.length = R.length ∧
      ∀ i, (∀ r, R.get? i = some r → r.URI ≠ rec.URI) →
        R'.get? i = R.get? i := by
  obtain ⟨R', hR'⟩ := replaceFirstByURI_isSome hmem
  obtain ⟨hlen, _, hframe⟩ := replaceFirstByURI_spec R rec R' hR'
  refine ⟨R', hR', ?_, hlen, hframe⟩
  simp only [updateRegistry, loadRegistry_saveContent R hwf, hR']

theorem update_frames_other_records_witness :
    ∃ R', replaceFirstByURI
        [⟨"r1".data, "l1".data, "u1".data⟩, ⟨"r2".data, "l2".data, "u2".data⟩]
        ⟨"r1".data, "h9".data, "u1".data⟩ = some R' ∧
      updateRegistry (saveContent
        [⟨"r1".data, "l1".data, "u1".data⟩, ⟨"r2".data, "l2".data, "u2".data⟩])
        ⟨"r1".data, "h9".data, "u1".data⟩ = some (saveContent R') ∧
      R'.length = ([⟨"r1".data, "l1".data, "u1".data⟩,
        ⟨"r2".data, "l2".data, "u2".data⟩] : List RegistryRecord).length ∧
      ∀ i, (∀ r, ([⟨"r1".data, "l1".data, "u1".data⟩,
          ⟨"r2".data, "l2".data, "u2".data⟩] : List RegistryRecord).get? i =
            some r → r.URI ≠ ("u1".data : Str)) →
        R'.get? i = ([⟨"r1".data, "l1".data, "u1".data⟩,
          ⟨"r2".data, "l2".data, "u2".data⟩] : List RegistryRecord).get? i :=
  update_frames_other_records _ _ (by decide)
    ⟨⟨"r1".data, "l1".data, "u1".data⟩, by decide, by decide⟩

theorem mem_insertSet {l : List Str} {x y : Str} :
    x ∈ insertSet l y ↔ x ∈ l ∨ x = y := by
  unfold insertSet
  by_cases h : y ∈ l
  · simp only [h, if_true]
    constructor
    · exact Or.inl
    · rintro (hx | rfl) <;> [exact hx; exact h]
  · simp [h]

theorem mem_eraseSet {l : List Str} {x y : Str} :
    x ∈ eraseSet l y ↔ x ∈ l ∧ x ≠ y := by
  induction l with
  | nil => simp [eraseSet]
  | cons z zs ih =>
    by_cases hz : z = y
    · subst hz
      rw [show eraseSet (z :: zs) z = eraseSet zs z from by simp [eraseSet], ih,
        List.mem_cons]
      constructor
      · exact fun ⟨h1, h2⟩ => ⟨Or.inr h1, h2⟩
      · rintro ⟨h1 | h1, h2⟩
        · exact absurd h1 h2
        · exact ⟨h1, h2⟩
    · rw [show eraseSet (z :: zs) y = z :: eraseSet zs y from by simp [eraseSet, hz],
        List.mem_cons, List.mem_cons, ih]
      constructor
      · rintro (rfl | ⟨h1, h2⟩)
        · exact ⟨Or.inl rfl, hz⟩
        · exact ⟨Or.inr h1, h2⟩
      · rintro ⟨h1 | h1, h2⟩
        · exact Or.inl h1
        · exact Or.inr ⟨h1, h2⟩

theorem mem_filterFiles {l : List Str} {x : Str} :
    x ∈ filterFiles l ↔ x ∈ l ∧ isIgnoredExtV1 (pathExt x) = false := by
  induction l with
  | nil => simp [filterFiles]
  | cons f fs ih =>
    by_cases hf : isIgnoredExtV1 (pathExt f) = true
    · rw [show filterFiles (f :: fs) = filterFiles fs from by simp [filterFiles, hf],
        ih, List.mem_cons]
      constructor
      · exact fun ⟨h1, h2⟩ => ⟨Or.inr h1, h2⟩
      · rintro ⟨h1 | h1, h2⟩
        · exact absurd hf (by rw [h1] at h2; simp [h2])
        · exact ⟨h1, h2⟩
    · rw [show filterFiles (f :: fs) = f :: filterFiles fs from by
          simp [filterFiles, hf],
        List.mem_cons, List.mem_cons, ih]
      constructor
      · rintro (rfl | ⟨h1, h2⟩)
        · exact ⟨Or.inl rfl, by simpa using hf⟩
        · exact ⟨Or.inr h1, h2⟩
      · rintro ⟨h1 | h1, h2⟩
        · exact Or.inl h1
        · exact Or.inr ⟨h1, h2⟩

theorem classifyV1_changed_preserved {t : Str} :
    ∀ (ps : List FilePatch) (st : List Str × List Str),
    t ∈ st.1 → (∀ p ∈ ps, p.src ≠ some t) →
    t ∈ (ps.foldl classifyStepV1 st).1
  | [], st, ht, _ => ht
  | p :: ps, st, ht, hps => by
    rw [List.foldl_cons]
    refine classifyV1_changed_preserved ps _ ?_ fun q hq => hps q (by simp [hq])
    have hpt : p.src ≠ some t := hps p (by simp)
    unfold classifyStepV1
    cases hsrc : p.src with
    | none =>
      cases p.dst with
      | none => exact ht
      | some d => exact mem_insertSet.mpr (Or.inl ht)
    | some f =>
      have hft : f ≠ t := fun h => hpt (by rw [hsrc, h])
      cases p.dst with
      | none => exact ht
      | some d =>
        by_cases hfd : f = d
        · simp only [hfd, if_true]
          exact mem_insertSet.mpr (Or.inl ht)
        · simp only [hfd, if_false]
          exact mem_insertSet.mpr
            (Or.inl (mem_eraseSet.mpr ⟨ht, fun h => hft h.symm⟩))

theorem classifyV1_changed_absent {f : Str} :
    ∀ (ps : List FilePatch) (st : List Str × List Str),
    f ∉ st.1 → (∀ p ∈ ps, p.dst ≠ some f) →
    f ∉ (ps.foldl classifyStepV1 st).1
  | [], st, hf, _ => hf
  | p :: ps, st, hf, hps => by
    rw [List.foldl_cons]
    refine classifyV1_changed_absent ps _ ?_ fun q hq => hps q (by simp [hq])
    have hpf : p.dst ≠ some f := hps p (by simp)
    unfold classifyStepV1
    cases p.src with
    | none =>
      cases hdst : p.dst with
      | none => exact hf
      | some d =>
        have hdf : d ≠ f := fun h => hpf (by rw [hdst, h])
        intro hmem
        rcases mem_insertSet.mp hmem with h | h
        · exact hf h
        · exact hdf h.symm
    | some g =>
      cases hdst : p.dst with
      | none => exact hf
      | some d =>
        have hdf : d ≠ f := fun h => hpf (by rw [hdst, h])
        by_cases hgd : g = d
        · simp only [hgd, if_true]
          intro hmem
          rcases mem_insertSet.mp hmem with h | h
          · exact hf h
          · exact hdf h.symm
        · simp only [hgd, if_false]
          intro hmem
          rcases mem_insertSet.mp hmem with h | h
          · exact hf (mem_eraseSet.mp h).1
          · exact hdf h.symm

theorem classifyV1_removed_absent {f : Str} :
    ∀ (ps : List FilePatch) (st : List Str × List Str),
    f ∉ st.2 → (∀ p ∈ ps, p.src ≠ some f) →
    f ∉ (ps.foldl classifyStepV1 st).2
  | [], st, hf, _ => hf
  | p :: ps, st, hf, hps => by
    rw [List.foldl_cons]
    refine classifyV1_removed_absent ps _ ?_ fun q hq => hps q (by simp [hq])
    have hpf : p.src ≠ some f := hps p (by simp)
    unfold classifyStepV1
    cases hsrc : p.src with
    | none =>
      cases p.dst with
      | none => exact hf
      | some d => exact hf
    | some g =>
      have hgf : g ≠ f := fun h => hpf (by rw [hsrc, h])
      cases p.dst with
      | none =>
        intro hmem
        rcases mem_insertSet.mp hmem with h | h
        · exact hf h
        · exact hgf h.symm
      | some d =>
        by_cases hgd : g = d
        · simp only [hgd, if_true]
          exact hf
        · simp only [hgd, if_false]
          exact hf

/-- C4 counterexample: in the `part_001` resolver a rename whose destination
has an ignored extension does not put the destination in the changed set
(the output filter removes it), refuting the unconditional claim. -/
theorem rename_ignored_destination_cex :
    (("b.json".data : Str) ∉
      (listChangedFilesSinceCommitV1 [⟨some "a.go".data, some "b.json".data⟩]).1) ∧
    listChangedFilesSinceCommitV1 [⟨some "a.go".data, some "b.json".data⟩]
      = ([], []) :=
  ⟨by decide, by decide⟩

/-- C4 (amended): for a rename entry whose destination extension is not in
the ignored set and whose source and destination paths occur in no other
entry of the diff, the `part_001` resolver puts the destination in the
changed output and the source in neither output.  (In the `part_000` variant
the rename filter keys on the source path's extension instead.) -/
theorem rename_absorbs_source_v1 (pre post : List FilePatch) (f t : Str)
    (hft : f ≠ t)
    (hext : isIgnoredExtV1 (pathExt t) = false)
    (hsep : ∀ p ∈ pre ++ post,
      p.src ≠ some f ∧ p.dst ≠ some f ∧ p.src ≠ some t) :
    t ∈ (listChangedFilesSinceCommitV1 (pre ++ ⟨some f, some t⟩ :: post)).1 ∧
    f ∉ (listChangedFilesSinceCommitV1 (pre ++ ⟨some f, some t⟩ :: post)).1 ∧
    f ∉ (listChangedFilesSinceCommitV1 (pre ++ ⟨some f, some t⟩ :: post)).2 := by
  have hpre : ∀ p ∈ pre, p.src ≠ some f ∧ p.dst ≠ some f ∧ p.src ≠ some t :=
    fun p hp => hsep p (by simp [hp])
  have hpost : ∀ p ∈ post, p.src ≠ some f ∧ p.dst ≠ some f ∧ p.src ≠ some t :=
    fun p hp => hsep p (by simp [hp])
  simp only [listChangedFilesSinceCommitV1, List.foldl_append, List.foldl_cons]
  set st0 := pre.foldl classifyStepV1 ([], []) with hst0
  have hstep : classifyStepV1 st0 ⟨some f, some t⟩ =
      (insertSet (eraseSet st0.1 f) t, st0.2) := by
    simp [classifyStepV1, hft]
  rw [hstep]
  refine ⟨?_, ?_, ?_⟩
  · refine mem_filterFiles.mpr ⟨?_, hext⟩
    exact classifyV1_changed_preserved post _
      (mem_insertSet.mpr (Or.inr rfl)) (fun p hp => (hpost p hp).2.2)
  · intro hmem
    have hf1 : f ∉ (insertSet (eraseSet st0.1 f) t, st0.2).1 := by
      intro hx
      rcases mem_insertSet.mp hx with hx | hx
      · exact (mem_eraseSet.mp hx).2 rfl
      · exact hft hx
    exact classifyV1_changed_absent post _ hf1 (fun p hp => (hpost p hp).2.1)
      (mem_filterFiles.mp hmem).1
  · intro hmem
    have hf0 : f ∉ st0.2 := by
      rw [hst0]
      exact classifyV1_removed_absent pre ([], []) (by simp)
        (fun p hp => (hpre p hp).1)
    exact classifyV1_removed_absent post (insertSet (eraseSet st0.1 f) t, st0.2)
      hf0 (fun p hp => (hpost p hp).1) (mem_filterFiles.mp hmem).1

theorem rename_absorbs_source_v1_witness :
    ("b.go".data : Str) ∈
      (listChangedFilesSinceCommitV1 [⟨some "a.go".data, some "b.go".data⟩]).1 ∧
    ("a.go".data : Str) ∉
      (listChangedFilesSinceCommitV1 [⟨some "a.go".data, some "b.go".data⟩]).1 ∧
    ("a.go".data : Str) ∉
      (listChangedFilesSinceCommitV1 [⟨some "a.go".data, some "b.go".data⟩]).2 :=
  rename_absorbs_source_v1 [] [] "a.go".data "b.go".data (by decide) (by decide)
    (by intro p hp; simp at hp)

/-- C5 counterexample: `part_000` keys the rename-branch extension filter on
the source path, so a rename from a non-ignored source to an
ignored-extension destination emits the ignored destination into the changed
output. -/
theorem extension_filter_v0_cex :
    classifyPatchesV0 [⟨some "a.go".data, some "b.json".data⟩]
      = some (["b.json".data], []) ∧
    isIgnoredExtV0 (pathExt "b.json".data) = true :=
  ⟨by decide, by decide⟩

/-- C5 (amended): in the `part_001` resolver — where the exclusion is applied
to the emitted outputs via `filterFiles` — no path with an ignored extension
ever appears in the changed or removed output, for any input diff and change
kind.  (In the `part_000` variant the classification-time filter keys on the
source path's extension, so a rename can emit an ignored-extension
destination.) -/
theorem extension_filter_v1 (ps : List FilePatch) (p : Str)
    (h : p ∈ (listChangedFilesSinceCommitV1 ps).1 ∨
      p ∈ (listChangedFilesSinceCommitV1 ps).2) :
    isIgnoredExtV1 (pathExt p) = false := by
  simp only [listChangedFilesSinceCommitV1] at h
  rcases h with h | h
  · exact (mem_filterFiles.mp h).2
  · exact (mem_filterFiles.mp h).2

theorem extension_filter_v1_witness :
    isIgnoredExtV1 (pathExt "m.go".data) = false :=
  extension_filter_v1 [⟨none, some "m.go".data⟩] "m.go".data (Or.inl (by decide))

/-- C9: in `part_000` the add-or-modify branch applies the extension filter
to `from.Path()`; for a pure addition `from` is nil, and the Go code
dereferences it — a panic, modelled by `none` — instead of classifying the
destination by its own extension.  The sibling variant (`part_001`) shows
the intended behaviour: the addition lands in the changed output keyed by
its own path. -/
theorem addition_filter_reads_nil_source :
    classifyPatchesV0 [⟨none, some "a.go".data⟩] = none ∧
    (listChangedFilesSinceCommitV1 [⟨none, some "a.go".data⟩]).1
      = ["a.go".data] :=
  ⟨by decide, by decide⟩

/-- C7: `part_000`'s `containsMarker` breaks out of its read loop as soon as
`ReadString` reports `io.EOF`, discarding the data returned alongside the
error, so a marker on a final line not terminated by a newline is missed —
the function returns no hit even though a line of the file contains a
configured marker.  The `bufio.Scanner` variant (`part_001`) returns the hit
with the first configured marker, and on a line containing both `todo` and
`fixme` the first configured marker `todo` is reported. -/
theorem containsMarker_eof_drops_final_line :
    containsMarkerV0 "todo".data ["todo".data, "fixme".data] = (false, none) ∧
    containsMarkerV1 "todo".data ["todo".data, "fixme".data]
      = (true, some "todo".data) ∧
    containsMarkerV1 "// todo and fixme\nrest\n".data
      ["todo".data, "fixme".data] = (true, some "todo".data) ∧
    containsMarkerV0 "// todo and fixme\nrest\n".data
      ["todo".data, "fixme".data] = (true, some "todo".data) :=
  ⟨by decide, by decide, by decide, by decide⟩

theorem syncCycleV0_skip (regs : List RegistryRecord) (rec : RegistryRecord)
    (head : Str) (patches : Str → Str → Except Unit (List FilePatch))
    (scan : Str → Except Unit Bool) (h : rec.LastestHash = head) :
    syncCycleV0 regs rec head patches scan = some ⟨regs, 0⟩ := by
  simp [syncCycleV0, h]

/-- C6 counterexample: for a record with empty LastProcessedRevision whose
resolved head equals its RootRevision, `part_000`'s sync loop does not skip:
it diffs root against root (empty), scans zero files, and then commits,
setting LastestHash to the head — the registry record is mutated. -/
theorem sync_empty_last_head_eq_root_cex :
    syncCycleV0 [⟨"r1".data, [], "u1".data⟩] ⟨"r1".data, [], "u1".data⟩
      "r1".data (fun _ _ => .ok []) (fun _ => .ok false)
      = some ⟨[⟨"r1".data, "r1".data, "u1".data⟩], 0⟩ ∧
    ([⟨"r1".data, "r1".data, "u1".data⟩] : List RegistryRecord) ≠
      [⟨"r1".data, [], "u1".data⟩] :=
  ⟨rfl, by decide⟩

/-- C6 (amended): the sync loop compares the head only against
LastProcessedRevision.  If they are equal it skips — zero files scanned, no
mutation.  If LastProcessedRevision is empty and the head equals
RootRevision, the cycle instead performs an empty diff starting at the root
revision, scans zero files, and commits the record with LastProcessedRevision
set to the head (a mutation, contrary to the claimed Skip transition). -/
theorem sync_compare_skip_behaviour :
    (∀ (regs : List RegistryRecord) (rec : RegistryRecord) (head : Str)
      (patches : Str → Str → Except Unit (List FilePatch))
      (scan : Str → Except Unit Bool),
      rec.LastestHash = head →
      syncCycleV0 regs rec head patches scan = some ⟨regs, 0⟩) ∧
    (∀ (regs : List RegistryRecord) (rec : RegistryRecord)
      (patches : Str → Str → Except Unit (List FilePatch))
      (scan : Str → Except Unit Bool),
      rec.LastestHash = [] → rec.RootHash ≠ [] →
      patches rec.RootHash rec.RootHash = .ok [] →
      syncCycleV0 regs rec rec.RootHash patches scan =
        some ⟨applyUpdate regs ⟨rec.RootHash, rec.RootHash, rec.URI⟩, 0⟩) := by
  constructor
  · intro regs rec head patches scan h
    exact syncCycleV0_skip regs rec head patches scan h
  · intro regs rec patches scan hlast hroot hp
    have hne : ¬ rec.LastestHash = rec.RootHash := by
      rw [hlast]; exact fun h => hroot h.symm
    have hfh : firstHash rec = rec.RootHash := by simp [firstHash, hlast]
    simp only [syncCycleV0, hne, if_false, hfh, hp]
    simp [classifyPatchesV0, scanHits, scanCount]

theorem sync_compare_skip_behaviour_witness :
    syncCycleV0 [⟨"r".data, "a".data, "u".data⟩] ⟨"r".data, "a".data, "u".data⟩
      "a".data (fun _ _ => .ok []) (fun _ => .ok false)
      = some ⟨[⟨"r".data, "a".data, "u".data⟩], 0⟩ ∧
    syncCycleV0 [⟨"r2".data, [], "u2".data⟩] ⟨"r2".data, [], "u2".data⟩
      "r2".data (fun _ _ => .ok []) (fun _ => .ok false)
      = some ⟨applyUpdate [⟨"r2".data, [], "u2".data⟩]
          ⟨"r2".data, "r2".data, "u2".data⟩, 0⟩ :=
  ⟨sync_compare_skip_behaviour.1 _ _ _ _ _ rfl,
   sync_compare_skip_behaviour.2 [⟨"r2".data, [], "u2".data⟩]
     ⟨"r2".data, [], "u2".data⟩ _ _ rfl (by decide) rfl⟩

/-- C1 counterexample: in `part_001`'s sync loop the registry write-back in
the changes-found branch is commented out, so a cycle whose head differs
from LastProcessedRevision and whose diff and scan succeed (with a hit)
leaves the persisted record unchanged — LastProcessedRevision is not
advanced to the head. -/
theorem sync_v1_changes_not_committed_cex :
    syncCycleV1 [⟨"r".data, "a".data, "u".data⟩] ⟨"r".data, "a".data, "u".data⟩
      "b".data (fun _ _ => .ok [⟨some "m.go".data, some "m.go".data⟩])
      (fun _ => .ok true)
      = ⟨[⟨"r".data, "a".data, "u".data⟩], 1⟩ ∧
    (⟨"r".data, "a".data, "u".data⟩ : RegistryRecord).LastestHash ≠ "b".data :=
  ⟨rfl, by decide⟩

/-- C1 (amended): in `part_000`'s sync loop, whenever the head differs from
LastProcessedRevision and the diff and scan stages succeed, the cycle
replaces the stored record for the URI with one whose LastProcessedRevision
is the new head (URI and RootRevision unchanged); and the registry is
mutated only by reaching that commit point.  In the `part_001` variant the
commit is disabled whenever the diff/scan reports any changed or removed
file. -/
theorem sync_cycle_commit_semantics :
    (∀ (regs : List RegistryRecord) (rec : RegistryRecord) (head : Str)
      (patches : Str → Str → Except Unit (List FilePatch))
      (scan : Str → Except Unit Bool) (ps : List FilePatch)
      (changed removed hits : List Str),
      rec.LastestHash ≠ head →
      patches (firstHash rec) head = .ok ps →
      classifyPatchesV0 ps = some (changed, removed) →
      scanHits scan changed = .ok hits →
      (∃ r ∈ regs, r.URI = rec.URI) →
      ∃ regs', replaceFirstByURI regs ⟨rec.RootHash, head, rec.URI⟩ = some regs' ∧
        syncCycleV0 regs rec head patches scan =
          some ⟨regs', scanCount scan changed⟩ ∧
        findByURI regs' rec.URI = some ⟨rec.RootHash, head, rec.URI⟩) ∧
    (∀ (regs : List RegistryRecord) (rec : RegistryRecord) (head : Str)
      (patches : Str → Str → Except Unit (List FilePatch))
      (scan : Str → Except Unit Bool) (res : CycleResult),
      syncCycleV0 regs rec head patches scan = some res →
      res.regs ≠ regs →
      rec.LastestHash ≠ head ∧
      ∃ ps changed removed hits,
        patches (firstHash rec) head = .ok ps ∧
        classifyPatchesV0 ps = some (changed, removed) ∧
        scanHits scan changed = .ok hits ∧
        res.regs = applyUpdate regs ⟨rec.RootHash, head, rec.URI⟩) := by
  constructor
  · intro regs rec head patches scan ps changed removed hits hne hp hc hs hmem
    obtain ⟨regs', hregs'⟩ :=
      @replaceFirstByURI_isSome regs ⟨rec.RootHash, head, rec.URI⟩
        (by simpa using hmem)
    refine ⟨regs', hregs', ?_, ?_⟩
    · simp only [syncCycleV0, hne, if_false, hp, hc, hs, applyUpdate, hregs',
        ite_self]
    · exact (replaceFirstByURI_spec regs _ regs' hregs').2.1
  · intro regs rec head patches scan res h hmut
    by_cases hskip : rec.LastestHash = head
    · rw [syncCycleV0_skip regs rec head patches scan hskip] at h
      obtain rfl : (⟨regs, 0⟩ : CycleResult) = res := by simpa using h
      exact absurd rfl hmut
    · refine ⟨hskip, ?_⟩
      simp only [syncCycleV0, hskip, if_false] at h
      cases hp : patches (firstHash rec) head with
      | error e =>
        simp only [hp] at h
        obtain rfl : (⟨regs, 0⟩ : CycleResult) = res := by simpa using h
        exact absurd rfl hmut
      | ok ps =>
        simp only [hp] at h
        cases hc : classifyPatchesV0 ps with
        | none => simp [hc] at h
        | some st =>
          obtain ⟨changed, removed⟩ := st
          simp only [hc] at h
          cases hs : scanHits scan changed with
          | error e =>
            simp only [hs] at h
            obtain rfl : (⟨regs, scanCount scan changed⟩ : CycleResult) = res := by
              simpa using h
            exact absurd rfl hmut
          | ok hits =>
            simp only [hs, ite_self] at h
            refine ⟨ps, changed, removed, hits, rfl, hc, hs, ?_⟩
            obtain rfl : (⟨applyUpdate regs ⟨rec.RootHash, head, rec.URI⟩,
                scanCount scan changed⟩ : CycleResult) = res := by simpa using h
            rfl

theorem sync_cycle_commit_semantics_witness :
    ∃ regs', replaceFirstByURI [(⟨"r".data, "a".data, "u".data⟩ : RegistryRecord)]
        ⟨"r".data, "b".data, "u".data⟩ = some regs' ∧
      syncCycleV0 [⟨"r".data, "a".data, "u".data⟩] ⟨"r".data, "a".data, "u".data⟩
        "b".data (fun _ _ => .ok [⟨some "m.go".data, some "m.go".data⟩])
        (fun _ => .ok true)
        = some ⟨regs', scanCount (fun _ => .ok true) ["m.go".data]⟩ ∧
      findByURI regs' "u".data = some ⟨"r".data, "b".data, "u".data⟩ :=
  sync_cycle_commit_semantics.1 [⟨"r".data, "a".data, "u".data⟩]
    ⟨"r".data, "a".data, "u".data⟩ "b".data
    (fun _ _ => .ok [⟨some "m.go".data, some "m.go".data⟩]) (fun _ => .ok true)
    [⟨some "m.go".data, some "m.go".data⟩] ["m.go".data] [] ["m.go".data]
    (by decide) rfl (by decide) rfl
    ⟨⟨"r".data, "a".data, "u".data⟩, by decide, by decide⟩

theorem walkSince_stops_at_boundary (boundary : Str) :
    ∀ (pre : List WalkCommit) (post : List WalkCommit) (bc : WalkCommit)
      (acc : List Str),
    (∀ c ∈ pre, c.hash ≠ boundary ∧ c.parent.isSome = true) →
    bc.hash = boundary →
    walkSince boundary (pre ++ bc :: post) acc =
      .ok (pre.foldl (fun a c => c.patches.foldl classifyStepV3 a) acc)
  | [], post, bc, acc, _, hbc => by
    simp [walkSince, hbc]
  | c :: pre, post, bc, acc, hpre, hbc => by
    have hc := hpre c (by simp)
    obtain ⟨p, hp⟩ := Option.isSome_iff_exists.mp hc.2
    rw [List.cons_append]
    rw [show walkSince boundary (c :: (pre ++ bc :: post)) acc =
        walkSince boundary (pre ++ bc :: post) (c.patches.foldl classifyStepV3 acc)
      from by simp [walkSince, hc.1, hp]]
    rw [walkSince_stops_at_boundary boundary pre post bc _
      (fun d hd => hpre d (by simp [hd])) hbc]
    simp

theorem walkSince_parentless_fails (boundary : Str) :
    ∀ (pre : List WalkCommit) (post : List WalkCommit) (c0 : WalkCommit)
      (acc : List Str),
    (∀ c ∈ pre, c.hash ≠ boundary ∧ c.parent.isSome = true) →
    c0.hash ≠ boundary → c0.parent = none →
    walkSince boundary (pre ++ c0 :: post) acc = .error ()
  | [], post, c0, acc, _, hc0, hpar => by
    simp [walkSince, hc0, hpar]
  | c :: pre, post, c0, acc, hpre, hc0, hpar => by
    have hc := hpre c (by simp)
    obtain ⟨p, hp⟩ := Option.isSome_iff_exists.mp hc.2
    rw [List.cons_append]
    rw [show walkSince boundary (c :: (pre ++ c0 :: post)) acc =
        walkSince boundary (pre ++ c0 :: post) (c.patches.foldl classifyStepV3 acc)
      from by simp [walkSince, hc.1, hp]]
    exact walkSince_parentless_fails boundary pre post c0 _
      (fun d hd => hpre d (by simp [hd])) hc0 hpar

/-- C8: the history walk of `part_003`'s `listChangedFilesSinceCommit` stops
at the boundary revision without accumulating the boundary's own diff (the
result depends only on the commits strictly before the boundary), and if a
commit encountered before the boundary has no resolvable parent the call
fails with an error instead of returning a result. -/
theorem walk_boundary_semantics :
    (∀ (boundary : Str) (pre post : List WalkCommit) (bc : WalkCommit)
      (acc : List Str),
      (∀ c ∈ pre, c.hash ≠ boundary ∧ c.parent.isSome = true) →
      bc.hash = boundary →
      walkSince boundary (pre ++ bc :: post) acc =
        .ok (pre.foldl (fun a c => c.patches.foldl classifyStepV3 a) acc)) ∧
    (∀ (boundary : Str) (pre post : List WalkCommit) (c0 : WalkCommit)
      (acc : List Str),
      (∀ c ∈ pre, c.hash ≠ boundary ∧ c.parent.isSome = true) →
      c0.hash ≠ boundary → c0.parent = none →
      walkSince boundary (pre ++ c0 :: post) acc = .error ()) :=
  ⟨fun b pre post bc acc h1 h2 => walkSince_stops_at_boundary b pre post bc acc h1 h2,
   fun b pre post c0 acc h1 h2 h3 =>
     walkSince_parentless_fails b pre post c0 acc h1 h2 h3⟩

theorem walk_boundary_semantics_witness :
    walkSince "b0".data
      [⟨"c2".data, some "c1".data, [⟨none, some "x.go".data⟩]⟩,
       ⟨"b0".data, some "p0".data, [⟨none, some "y.go".data⟩]⟩] [] =
      .ok (([⟨"c2".data, some "c1".data, [⟨none, some "x.go".data⟩]⟩] :
          List WalkCommit).foldl
        (fun a c => c.patches.foldl classifyStepV3 a) []) ∧
    walkSince "zz".data [⟨"c1".data, none, []⟩] [] = .error () :=
  ⟨walk_boundary_semantics.1 "b0".data
      [⟨"c2".data, some "c1".data, [⟨none, some "x.go".data⟩]⟩] []
      ⟨"b0".data, some "p0".data, [⟨none, some "y.go".data⟩]⟩ []
      (by decide) rfl,
   walk_boundary_semantics.2 "zz".data [] [] ⟨"c1".data, none, []⟩ []
      (by simp) (by decide) rfl⟩
